import Mathlib

/-!
Verification of the augmented AVL leaderboard tree from src/src/avl.rs.

The Rust code stores an `Option<AVLNode>` root and each node owns
`Option<Box<AVLNode>>` children.  We embed both layers in one inductive:
the constructor `nil` is Rust's `None` and `node` is a present `AVLNode`.
Constructor field order mirrors the Rust struct declaration order:
`player_id`, `score`, `right`, `left`, `height`, `children`.
Scores are `u64` (modelled by `Nat`; the program never wraps), `height` is
`isize` (modelled by `Int`), `children` is `usize` (modelled by `Nat`).

Node methods that mutate `&mut self` become functions `AVLNode → AVLNode`;
the deletion routines, which in Rust return `bool` ("caller must drop me"),
return `Option AVLNode` here, `none` meaning the Rust `true` signal.
-/

inductive AVLNode : Type where
  | nil : AVLNode
  | node (player_id : List String) (score : Nat) (right : AVLNode)
      (left : AVLNode) (height : Int) (children : Nat) : AVLNode
deriving DecidableEq, Repr

/-- `child.as_ref().map(|x| x.height).unwrap_or(0)` applied to a child slot. -/
def AVLNode.childHeight : AVLNode → Int
  | .nil => 0
  | .node _ _ _ _ h _ => h

/-- `child.as_ref().map(|x| x.children + 1).unwrap_or(0)` applied to a child slot. -/
def AVLNode.childCount : AVLNode → Nat
  | .nil => 0
  | .node _ _ _ _ _ c => c + 1

/-- `AVLNode::height_left`. -/
def AVLNode.height_left : AVLNode → Int
  | .nil => 0
  | .node _ _ _ l _ _ => AVLNode.childHeight l

/-- `AVLNode::height_right`. -/
def AVLNode.height_right : AVLNode → Int
  | .nil => 0
  | .node _ _ r _ _ _ => AVLNode.childHeight r

/-- `AVLNode::update_attrs`: recompute the cached `height` and `children`
fields from the children's cached fields. -/
def AVLNode.update_attrs : AVLNode → AVLNode
  | .nil => .nil
  | .node ps sc r l _ _ =>
      .node ps sc r l (max (AVLNode.childHeight l) (AVLNode.childHeight r) + 1)
        (AVLNode.childCount l + AVLNode.childCount r)

/-- `AVLNode::unbalanced`: `isize::abs_diff(height_left, height_right) > 1`. -/
def AVLNode.unbalanced (t : AVLNode) : Bool :=
  (t.height_left - t.height_right).natAbs > 1

/-- `AVLNode::rotate_left`.  The Rust code takes the right child `b`, hands
`b`'s left subtree to the current node, swaps the two nodes in memory and
reattaches; update order is child first, then new root. -/
def AVLNode.rotate_left : AVLNode → AVLNode
  | .node ps sc (.node bps bsc br bl bh bc) l h c =>
      AVLNode.update_attrs (.node bps bsc br
        (AVLNode.update_attrs (.node ps sc bl l h c)) bh bc)
  | t => t

/-- `AVLNode::rotate_right`. -/
def AVLNode.rotate_right : AVLNode → AVLNode
  | .node ps sc r (.node bps bsc br bl bh bc) h c =>
      AVLNode.update_attrs (.node bps bsc
        (AVLNode.update_attrs (.node ps sc r br h c)) bl bh bc)
  | t => t

/-- `AVLNode::rebalance_if_needed`.  Note the strict comparisons in the
`rr_heavy` / `ll_heavy` tests, exactly as in the source. -/
def AVLNode.rebalance_if_needed (t : AVLNode) : AVLNode :=
  if ¬ t.unbalanced then t
  else if t.height_right - t.height_left > 1 then
    match t with
    | .node ps sc (.node rps rsc rr rl rh rc) l h c =>
        if AVLNode.childHeight rr > AVLNode.childHeight rl then
          AVLNode.rotate_left (.node ps sc (.node rps rsc rr rl rh rc) l h c)
        else
          AVLNode.rotate_left
            (.node ps sc (AVLNode.rotate_right (.node rps rsc rr rl rh rc)) l h c)
    | t => t
  else
    match t with
    | .node ps sc r (.node lps lsc lr ll lh lc) h c =>
        if AVLNode.childHeight ll > AVLNode.childHeight lr then
          AVLNode.rotate_right (.node ps sc r (.node lps lsc lr ll lh lc) h c)
        else
          AVLNode.rotate_right
            (.node ps sc r (AVLNode.rotate_left (.node lps lsc lr ll lh lc)) h c)
    | t => t

/-- `AVLNode::insert`, merged with the `Leaderboard::insert` `None`-root case:
inserting into an absent node creates the single fresh node with height 1 and
children 0, exactly as both the `Leaderboard` branch and the
`Box::new(Self::new(..))` child branch do. -/
def AVLNode.insert : AVLNode → String → Nat → AVLNode
  | .nil, p, s => .node [p] s .nil .nil 1 0
  | .node ps sc r l h c, p, s =>
      if sc == s then .node (ps ++ [p]) sc r l h c
      else if s < sc then
        AVLNode.rebalance_if_needed
          (AVLNode.update_attrs (.node ps sc r (AVLNode.insert l p s) h c))
      else
        AVLNode.rebalance_if_needed
          (AVLNode.update_attrs (.node ps sc (AVLNode.insert r p s) l h c))

/-- Number of nodes in a subtree (specification-side measure). -/
def AVLNode.size : AVLNode → Nat
  | .nil => 0
  | .node _ _ r l _ _ => 1 + AVLNode.size r + AVLNode.size l

/-- Core of `AVLNode::delete`, applied to the fields
`(player_id, score, right, left, height, children)` of the node being
deleted.  `none` models the Rust `true` return ("caller must drop this
node").  No children: signal removal.  Exactly one child: the node becomes
that child's whole subtree (content swap), then refresh and rebalance.  Two
children: the source swaps only `score` and `player_id` with the *left
child* and calls `delete` on it again; that re-entry is the recursive call
here, structural on the left child. -/
def AVLNode.deleteNode :
    List String → Nat → AVLNode → AVLNode → Int → Nat → Option AVLNode
  | _, _, .nil, .nil, _, _ => none
  | _, _, .node rps rsc rr rl rh rc, .nil, _, _ =>
      some (AVLNode.rebalance_if_needed
        (AVLNode.update_attrs (.node rps rsc rr rl rh rc)))
  | _, _, .nil, .node lps lsc lr ll lh lc, _, _ =>
      some (AVLNode.rebalance_if_needed
        (AVLNode.update_attrs (.node lps lsc lr ll lh lc)))
  | ps, sc, .node rps rsc rr rl rh rc, .node lps lsc lr ll lh lc, h, c =>
      match AVLNode.deleteNode ps sc lr ll lh lc with
      | none =>
          some (AVLNode.rebalance_if_needed (AVLNode.update_attrs
            (.node lps lsc (.node rps rsc rr rl rh rc) .nil h c)))
      | some l2 =>
          some (AVLNode.rebalance_if_needed (AVLNode.update_attrs
            (.node lps lsc (.node rps rsc rr rl rh rc) l2 h c)))

/-- `AVLNode::delete` on a present node. -/
def AVLNode.delete : AVLNode → Option AVLNode
  | .nil => none
  | .node ps sc r l h c => AVLNode.deleteNode ps sc r l h c

/-- `AVLNode::delete_player`: post-order removal of a player from every
bucket; `none` models the Rust `true` return.  The source never calls this
on an absent node (`if let Some` guards every call); the `nil` equation
returns `some nil` so that the child update below — "recurse if the child
is present, else leave the slot `None`" — is one uniform expression. -/
def AVLNode.delete_player : AVLNode → String → Option AVLNode
  | .nil, _ => some .nil
  | .node ps sc r l h c, p =>
      let l' := match AVLNode.delete_player l p with
        | none => AVLNode.nil
        | some x => x
      let r' := match AVLNode.delete_player r p with
        | none => AVLNode.nil
        | some x => x
      let ps' := ps.filter (fun q => q ≠ p)
      if ps'.length < 1 then
        AVLNode.delete (.node ps' sc r' l' h c)
      else
        some (AVLNode.rebalance_if_needed
          (AVLNode.update_attrs (.node ps' sc r' l' h c)))

/-- `AVLNode::delete_player_score`; `none` models the Rust `true` return.
As with `delete_player`, the unreachable `nil` equation is `some nil` so
the guarded child recursion is one uniform expression. -/
def AVLNode.delete_player_score : AVLNode → String → Nat → Option AVLNode
  | .nil, _, _ => some .nil
  | .node ps sc r l h c, p, s =>
      if sc == s then
        let ps' := ps.filter (fun q => q ≠ p)
        if ps'.length < 1 then
          AVLNode.delete (.node ps' sc r l h c)
        else
          some (AVLNode.rebalance_if_needed
            (AVLNode.update_attrs (.node ps' sc r l h c)))
      else if s < sc then
        let l' := match AVLNode.delete_player_score l p s with
          | none => AVLNode.nil
          | some x => x
        some (AVLNode.rebalance_if_needed
          (AVLNode.update_attrs (.node ps sc r l' h c)))
      else
        let r' := match AVLNode.delete_player_score r p s with
          | none => AVLNode.nil
          | some x => x
        some (AVLNode.rebalance_if_needed
          (AVLNode.update_attrs (.node ps sc r' l h c)))

/-- `AVLNode::top_n_players`.  The `take_while(|(i, _)| *i < rem)` over the
enumerated bucket is `List.take rem`. -/
def AVLNode.top_n_players : AVLNode → Nat → List (String × Nat)
  | .nil, _ => []
  | .node ps sc r l _ _, n =>
      let results := AVLNode.top_n_players r n
      let rem := n - results.length
      if rem < 1 then results
      else
        let results := results ++ (ps.take rem).map (fun p => (p, sc))
        let rem := n - results.length
        results ++ AVLNode.top_n_players l rem

/-- `AVLNode::rank_of` with its `num_better` accumulator. -/
def AVLNode.rank_of : AVLNode → String → Nat → Nat → Option Nat
  | .nil, _, _, _ => none
  | .node ps sc r l _ _, p, s, num_better =>
      let right_tree_size := AVLNode.childCount r
      if sc == s then
        if (ps.filter (fun v => v == p)).length < 1 then none
        else some (1 + right_tree_size + num_better)
      else if s < sc then
        AVLNode.rank_of l p s (1 + right_tree_size + num_better)
      else
        AVLNode.rank_of r p s num_better

/-- Total size of all trees on the explicit traversal stack. -/
def AVLNode.stackSize : List AVLNode → Nat
  | [] => 0
  | t :: rest => AVLNode.size t + AVLNode.stackSize rest

/-- The sequence produced by `LeaderboardIter` (pre-order walk driven by an
explicit stack: pop a node, push its right child then its left child, yield
the node's bucket and score). -/
def AVLNode.iterList (stack : List AVLNode) : List (List String × Nat) :=
  match stack with
  | [] => []
  | .nil :: rest => AVLNode.iterList rest
  | .node ps sc r l _ _ :: rest =>
      (ps, sc) :: AVLNode.iterList
        (match l, r with
          | .nil, .nil => rest
          | .nil, r' => r' :: rest
          | l', .nil => l' :: rest
          | l', r' => l' :: r' :: rest)
termination_by 2 * AVLNode.stackSize stack + stack.length
decreasing_by
  · simp [AVLNode.stackSize, AVLNode.size]
  · cases l <;> cases r <;> simp_all [AVLNode.stackSize, AVLNode.size] <;> omega

/-- The `Leaderboard` handle: a single nullable root. -/
structure Leaderboard : Type where
  root : AVLNode
deriving DecidableEq, Repr

/-- `Leaderboard::new`. -/
def Leaderboard.new : Leaderboard := ⟨AVLNode.nil⟩

/-- `Leaderboard::insert`. -/
def Leaderboard.insert (lb : Leaderboard) (p : String) (s : Nat) : Leaderboard :=
  ⟨AVLNode.insert lb.root p s⟩

/-- `Leaderboard::delete_player`: a `true` signal from the root clears it. -/
def Leaderboard.delete_player (lb : Leaderboard) (p : String) : Leaderboard :=
  match lb.root with
  | .nil => lb
  | t =>
    match AVLNode.delete_player t p with
    | none => ⟨AVLNode.nil⟩
    | some t' => ⟨t'⟩

/-- `Leaderboard::delete_player_score`. -/
def Leaderboard.delete_player_score (lb : Leaderboard) (p : String) (s : Nat) :
    Leaderboard :=
  match lb.root with
  | .nil => lb
  | t =>
    match AVLNode.delete_player_score t p s with
    | none => ⟨AVLNode.nil⟩
    | some t' => ⟨t'⟩

/-- `Leaderboard::top_n_players` (an absent root yields the empty list, as
does `AVLNode.top_n_players` on `nil`). -/
def Leaderboard.top_n_players (lb : Leaderboard) (n : Nat) : List (String × Nat) :=
  AVLNode.top_n_players lb.root n

/-- `Leaderboard::rank_of` (starts the accumulator at 0). -/
def Leaderboard.rank_of (lb : Leaderboard) (p : String) (s : Nat) : Option Nat :=
  AVLNode.rank_of lb.root p s 0

/-- `Leaderboard::pre_order`, materialized as the list of items the iterator
yields. -/
def Leaderboard.pre_order (lb : Leaderboard) : List (List String × Nat) :=
  AVLNode.iterList (match lb.root with | .nil => [] | t => [t])

/-!
Specification-side definitions: independently recomputed tree measures, the
data-model invariants as decidable predicates, and public-operation
sequences.
-/

/-- Left child slot of a node (`nil` for an absent node). -/
def AVLNode.leftChild : AVLNode → AVLNode
  | .nil => .nil
  | .node _ _ _ l _ _ => l

/-- Right child slot of a node (`nil` for an absent node). -/
def AVLNode.rightChild : AVLNode → AVLNode
  | .nil => .nil
  | .node _ _ r _ _ _ => r

/-- True height of a subtree, recomputed by full traversal (0 for `nil`). -/
def AVLNode.realHeight : AVLNode → Int
  | .nil => 0
  | .node _ _ r l _ _ => max (AVLNode.realHeight l) (AVLNode.realHeight r) + 1

/-- Every node's cached `height` and `children` equal the recomputed values:
`height = 1 + max(height left, height right)` and
`children = size left + size right` (the node itself excluded). -/
def AVLNode.attrsOkB : AVLNode → Bool
  | .nil => true
  | .node _ _ r l h c =>
      AVLNode.attrsOkB l && AVLNode.attrsOkB r &&
      (h == max (AVLNode.realHeight l) (AVLNode.realHeight r) + 1) &&
      (c == AVLNode.size l + AVLNode.size r)

/-- AVL balance on true heights: every node's subtree heights differ by at
most 1. -/
def AVLNode.balancedB : AVLNode → Bool
  | .nil => true
  | .node _ _ r l _ _ =>
      decide ((AVLNode.realHeight l - AVLNode.realHeight r).natAbs ≤ 1) &&
      AVLNode.balancedB l && AVLNode.balancedB r

/-- Every node score in the subtree satisfies `Q`. -/
def AVLNode.allScoresB (Q : Nat → Bool) : AVLNode → Bool
  | .nil => true
  | .node _ sc r l _ _ =>
      Q sc && AVLNode.allScoresB Q l && AVLNode.allScoresB Q r

/-- BST invariant: left subtree scores strictly below, right strictly above,
recursively. -/
def AVLNode.bstB : AVLNode → Bool
  | .nil => true
  | .node _ sc r l _ _ =>
      AVLNode.allScoresB (fun x => decide (x < sc)) l &&
      AVLNode.allScoresB (fun x => decide (sc < x)) r &&
      AVLNode.bstB l && AVLNode.bstB r

/-- Every (bucket, score) pair carried by a node of the subtree satisfies
`Q`. -/
def AVLNode.allPairsB (Q : List String → Nat → Bool) : AVLNode → Bool
  | .nil => true
  | .node ps sc r l _ _ =>
      Q ps sc && AVLNode.allPairsB Q l && AVLNode.allPairsB Q r

/-- Bucket invariant: no node carries an empty player list. -/
def AVLNode.bucketsNE : AVLNode → Bool :=
  AVLNode.allPairsB (fun ps _ => !ps.isEmpty)

/-- `p` appears in no bucket of the subtree. -/
def AVLNode.noPlayerB (p : String) : AVLNode → Bool :=
  AVLNode.allPairsB (fun ps _ => !ps.contains p)

/-- No bucket at score `s` contains `p` (in particular: no node with score
`s`, or the node at `s` without `p`). -/
def AVLNode.noPairB (p : String) (s : Nat) : AVLNode → Bool :=
  AVLNode.allPairsB (fun ps sc => (sc != s) || !ps.contains p)

/-- Some node has score `s` and `p` in its bucket. -/
def AVLNode.hasPairB (p : String) (s : Nat) : AVLNode → Bool
  | .nil => false
  | .node ps sc r l _ _ =>
      ((sc == s) && ps.contains p) || AVLNode.hasPairB p s l ||
        AVLNode.hasPairB p s r

/-- Number of nodes whose score is strictly greater than `s`. -/
def AVLNode.countGT (s : Nat) : AVLNode → Nat
  | .nil => 0
  | .node _ sc r l _ _ =>
      (if s < sc then 1 else 0) + AVLNode.countGT s l + AVLNode.countGT s r

/-- The full descending (player, score) listing: right subtree first, then
the bucket in insertion order, then the left subtree. -/
def AVLNode.descPairs : AVLNode → List (String × Nat)
  | .nil => []
  | .node ps sc r l _ _ =>
      AVLNode.descPairs r ++ ps.map (fun p => (p, sc)) ++ AVLNode.descPairs l

/-- In-order listing of scores. -/
def AVLNode.inorderScores : AVLNode → List Nat
  | .nil => []
  | .node _ sc r l _ _ =>
      AVLNode.inorderScores l ++ [sc] ++ AVLNode.inorderScores r

/-- Decidable strict-increase test on a list of naturals. -/
def strictIncB : List Nat → Bool
  | [] => true
  | [_] => true
  | a :: b :: rest => decide (a < b) && strictIncB (b :: rest)

/-- The public mutating operations of the `Leaderboard`. -/
inductive Op : Type where
  | ins (p : String) (s : Nat) : Op
  | delP (p : String) : Op
  | delPS (p : String) (s : Nat) : Op
deriving DecidableEq, Repr

/-- Dispatch one public operation. -/
def applyOp (lb : Leaderboard) : Op → Leaderboard
  | .ins p s => lb.insert p s
  | .delP p => lb.delete_player p
  | .delPS p s => lb.delete_player_score p s

/-- Run a sequence of public operations from the empty leaderboard. -/
def runOps (ops : List Op) : Leaderboard :=
  ops.foldl applyOp Leaderboard.new

/-- Operation sequence whose final deletion forces a rebalance at the root
with a height-balanced right child. -/
def ops1 : List Op :=
  [.ins "A" 50, .ins "B" 20, .ins "C" 80, .ins "D" 10, .ins "E" 70,
   .ins "F" 90, .ins "G" 60, .ins "H" 95, .delPS "D" 10]

/-- Operation sequence whose final deletion removes a node with two children
whose left child has a right child. -/
def ops2 : List Op :=
  [.ins "A" 10, .ins "B" 5, .ins "C" 15, .ins "D" 7, .delPS "A" 10]

/-- The five-insert example from the demonstration driver. -/
def lbEx : Leaderboard :=
  runOps [.ins "A" 150, .ins "B" 200, .ins "C" 120, .ins "D" 180, .ins "E" 250]

/-- The exact tree handed to `rebalance_if_needed` at the root while
`runOps ops1` executes its final deletion: right taller by 2, right child
height-balanced (both grandchild heights 2). -/
def t4 : AVLNode :=
  .node ["A"] 50
    (.node ["C"] 80
      (.node ["F"] 90 (.node ["H"] 95 .nil .nil 1 0) .nil 2 1)
      (.node ["E"] 70 .nil (.node ["G"] 60 .nil .nil 1 0) 2 1)
      3 4)
    (.node ["B"] 20 .nil .nil 1 0)
    4 6

/-!
Theorems.
-/

/-- C1: the claimed invariant — after every sequence of public operations
from the empty leaderboard, every node's subtree heights differ by at most
1 — fails on the code.  `ops1` builds an 8-node tree and then deletes the
score-10 leaf; the rebalance at the root meets a height-balanced right
child, the strict `rr_heavy` test sends it down the double-rotation path,
and the rotated tree contains a node (score 80) whose child heights are 0
and 2. -/
theorem c1_balance_invariant_violated :
    AVLNode.balancedB (runOps ops1).root = false := by decide

/-- C2: the claim says two-children deletion exchanges the node's pair with
its in-order predecessor (the maximum of the left subtree) and recurses to
remove the duplicate.  The code instead exchanges with the immediate left
child.  After the four inserts of `ops2` the tree is
`10 (left: 5 (right: 7), right: 15)`; the in-order predecessor of 10 is 7,
yet after `delete_player_score "A" 10` the root carries the left child's
pair `(5, ["B"])` and the score-7 node sits in its left slot. -/
theorem c2_delete_swaps_left_child_not_predecessor :
    (runOps (ops2.take 4)).root =
      .node ["A"] 10 (.node ["C"] 15 .nil .nil 1 0)
        (.node ["B"] 5 (.node ["D"] 7 .nil .nil 1 0) .nil 2 1) 3 3 ∧
    (runOps ops2).root =
      .node ["B"] 5 (.node ["C"] 15 .nil .nil 1 0)
        (.node ["D"] 7 .nil .nil 1 0) 2 2 := by decide

/-- C3: the claimed BST invariant — the in-order traversal after every
public operation yields strictly increasing scores — fails on the code:
after `ops2` the in-order scores are `[7, 5, 15]`. -/
theorem c3_bst_invariant_violated :
    strictIncB (AVLNode.inorderScores (runOps ops2).root) = false := by decide

/-- C4: the claim says a node that is right-heavy by at least 2 whose right
child is right-heavy **or balanced** receives exactly a single left
rotation.  The concrete tree `t4` (reached at the root during the final
deletion of `ops1`) satisfies that condition with a perfectly balanced
right child, yet `rebalance_if_needed` does not perform the single left
rotation: the strict `>` in the `rr_heavy` test routes it to the
right-left double rotation. -/
theorem c4_balanced_child_gets_double_rotation :
    AVLNode.realHeight t4.rightChild - AVLNode.realHeight t4.leftChild ≥ 2 ∧
    AVLNode.realHeight t4.rightChild.rightChild ≥
      AVLNode.realHeight t4.rightChild.leftChild ∧
    AVLNode.rebalance_if_needed t4 ≠ AVLNode.rotate_left t4 := by decide

/-- C10: on the empty leaderboard every public operation is total and
defined: `rank_of` is absent, `top_n_players` is empty for every `n`,
both deletions leave the root absent, and `pre_order` yields nothing. -/
theorem c10_empty_leaderboard_total (p : String) (s n : Nat) :
    Leaderboard.new.rank_of p s = none ∧
    Leaderboard.new.top_n_players n = [] ∧
    Leaderboard.new.delete_player p = Leaderboard.new ∧
    Leaderboard.new.delete_player_score p s = Leaderboard.new ∧
    Leaderboard.new.pre_order = [] :=
  ⟨rfl, rfl, rfl, rfl, by simp [Leaderboard.pre_order, AVLNode.iterList, Leaderboard.new]⟩

/-- Unfolding characterisation of `attrsOkB` at a node. -/
theorem AVLNode.attrsOkB_node_iff {ps sc r l h c} :
    AVLNode.attrsOkB (.node ps sc r l h c) = true ↔
      (AVLNode.attrsOkB l = true ∧ AVLNode.attrsOkB r = true ∧
       h = max (AVLNode.realHeight l) (AVLNode.realHeight r) + 1 ∧
       c = AVLNode.size l + AVLNode.size r) := by
  simp [AVLNode.attrsOkB, Bool.and_eq_true, and_assoc]

/-- A correct cache reports the true height. -/
theorem AVLNode.childHeight_eq {t : AVLNode} (h : AVLNode.attrsOkB t = true) :
    AVLNode.childHeight t = AVLNode.realHeight t := by
  cases t with
  | nil => rfl
  | node ps sc r l hh cc =>
      rcases AVLNode.attrsOkB_node_iff.1 h with ⟨-, -, hh', -⟩
      simp [AVLNode.childHeight, AVLNode.realHeight, hh']

/-- A correct cache reports the true node count. -/
theorem AVLNode.childCount_eq {t : AVLNode} (h : AVLNode.attrsOkB t = true) :
    AVLNode.childCount t = AVLNode.size t := by
  cases t with
  | nil => rfl
  | node ps sc r l hh cc =>
      rcases AVLNode.attrsOkB_node_iff.1 h with ⟨-, -, -, cc'⟩
      simp [AVLNode.childCount, AVLNode.size, cc']
      omega

/-- `update_attrs` makes the node's caches exact whenever the children's
caches are exact. -/
theorem AVLNode.update_attrs_ok {ps sc r l h c}
    (hl : AVLNode.attrsOkB l = true) (hr : AVLNode.attrsOkB r = true) :
    AVLNode.attrsOkB (AVLNode.update_attrs (.node ps sc r l h c)) = true := by
  simp only [AVLNode.update_attrs]
  exact AVLNode.attrsOkB_node_iff.2
    ⟨hl, hr, by rw [AVLNode.childHeight_eq hl, AVLNode.childHeight_eq hr],
     by rw [AVLNode.childCount_eq hl, AVLNode.childCount_eq hr]⟩

/-- `rotate_left` produces exact caches whenever the three reattached
subtrees have exact caches (the two rotating nodes' own stale fields are
overwritten by `update_attrs`). -/
theorem AVLNode.rotate_left_ok {ps sc bps bsc br bl bh bc l h c}
    (hl : AVLNode.attrsOkB l = true) (hbl : AVLNode.attrsOkB bl = true)
    (hbr : AVLNode.attrsOkB br = true) :
    AVLNode.attrsOkB
      (AVLNode.rotate_left (.node ps sc (.node bps bsc br bl bh bc) l h c)) = true := by
  simp only [AVLNode.rotate_left]
  exact AVLNode.update_attrs_ok (AVLNode.update_attrs_ok hl hbl) hbr

/-- `rotate_right` analogue of `AVLNode.rotate_left_ok`. -/
theorem AVLNode.rotate_right_ok {ps sc bps bsc br bl bh bc l h c}
    (hr : AVLNode.attrsOkB l = true) (hbl : AVLNode.attrsOkB bl = true)
    (hbr : AVLNode.attrsOkB br = true) :
    AVLNode.attrsOkB
      (AVLNode.rotate_right (.node ps sc l (.node bps bsc br bl bh bc) h c)) = true := by
  simp only [AVLNode.rotate_right]
  exact AVLNode.update_attrs_ok hbl (AVLNode.update_attrs_ok hbr hr)

/-- `rebalance_if_needed` preserves exact caches. -/
theorem AVLNode.rebalance_ok {t : AVLNode} (hok : AVLNode.attrsOkB t = true) :
    AVLNode.attrsOkB (AVLNode.rebalance_if_needed t) = true := by
  cases t with
  | nil => exact hok
  | node ps sc r l h c =>
    rcases AVLNode.attrsOkB_node_iff.1 hok with ⟨hl, hr, -, -⟩
    cases r with
    | nil =>
      cases l with
      | nil => exact hok
      | node lps lsc lr ll lh' lc' =>
        rcases AVLNode.attrsOkB_node_iff.1 hl with ⟨hll, hlr, -, -⟩
        simp only [AVLNode.rebalance_if_needed]
        split
        · exact hok
        split
        · exact hok
        · split
          · exact AVLNode.rotate_right_ok hr hll hlr
          · cases lr with
            | nil => exact AVLNode.rotate_right_ok hr hll rfl
            | node qps qsc qr ql qh qc =>
              rcases AVLNode.attrsOkB_node_iff.1 hlr with ⟨hql, hqr, -, -⟩
              exact AVLNode.rotate_right_ok hr (AVLNode.update_attrs_ok hll hql) hqr
    | node rps rsc rr rl rh' rc' =>
      rcases AVLNode.attrsOkB_node_iff.1 hr with ⟨hrl, hrr, -, -⟩
      cases l with
      | nil =>
        simp only [AVLNode.rebalance_if_needed]
        split
        · exact hok
        split
        · split
          · exact AVLNode.rotate_left_ok hl hrl hrr
          · cases rl with
            | nil => exact AVLNode.rotate_left_ok hl rfl hrr
            | node qps qsc qr ql qh qc =>
              rcases AVLNode.attrsOkB_node_iff.1 hrl with ⟨hql, hqr, -, -⟩
              exact AVLNode.rotate_left_ok hl hql (AVLNode.update_attrs_ok hqr hrr)
        · exact hok
      | node lps lsc lr ll lh' lc' =>
        rcases AVLNode.attrsOkB_node_iff.1 hl with ⟨hll, hlr, -, -⟩
        simp only [AVLNode.rebalance_if_needed]
        split
        · exact hok
        split
        · split
          · exact AVLNode.rotate_left_ok hl hrl hrr
          · cases rl with
            | nil => exact AVLNode.rotate_left_ok hl rfl hrr
            | node qps qsc qr ql qh qc =>
              rcases AVLNode.attrsOkB_node_iff.1 hrl with ⟨hql, hqr, -, -⟩
              exact AVLNode.rotate_left_ok hl hql (AVLNode.update_attrs_ok hqr hrr)
        · split
          · exact AVLNode.rotate_right_ok hr hll hlr
          · cases lr with
            | nil => exact AVLNode.rotate_right_ok hr hll rfl
            | node qps qsc qr ql qh qc =>
              rcases AVLNode.attrsOkB_node_iff.1 hlr with ⟨hql, hqr, -, -⟩
              exact AVLNode.rotate_right_ok hr (AVLNode.update_attrs_ok hll hql) hqr

/-- `insert` preserves exact caches. -/
theorem AVLNode.insert_ok : ∀ (t : AVLNode) (p : String) (s : Nat),
    AVLNode.attrsOkB t = true → AVLNode.attrsOkB (AVLNode.insert t p s) = true := by
  intro t
  induction t with
  | nil => intro p s _; rfl
  | node ps sc r l h c ihr ihl =>
    intro p s hok
    rcases AVLNode.attrsOkB_node_iff.1 hok with ⟨hl, hr, hh, hc⟩
    simp only [AVLNode.insert]
    split
    · exact AVLNode.attrsOkB_node_iff.2 ⟨hl, hr, hh, hc⟩
    split
    · exact AVLNode.rebalance_ok (AVLNode.update_attrs_ok (ihl p s hl) hr)
    · exact AVLNode.rebalance_ok (AVLNode.update_attrs_ok hl (ihr p s hr))

/-- `deleteNode` preserves exact caches. -/
theorem AVLNode.deleteNode_ok :
    ∀ (l : AVLNode) (ps : List String) (sc : Nat) (r : AVLNode) (h : Int)
      (c : Nat) (t' : AVLNode), AVLNode.attrsOkB l = true →
      AVLNode.attrsOkB r = true →
      AVLNode.deleteNode ps sc r l h c = some t' →
      AVLNode.attrsOkB t' = true := by
  intro l
  induction l with
  | nil =>
    intro ps sc r h c t' _ hr hdel
    cases r with
    | nil => simp [AVLNode.deleteNode] at hdel
    | node rps rsc rr rl rh' rc' =>
      rcases AVLNode.attrsOkB_node_iff.1 hr with ⟨hrl, hrr, -, -⟩
      simp only [AVLNode.deleteNode, Option.some.injEq] at hdel
      exact hdel ▸ AVLNode.rebalance_ok (AVLNode.update_attrs_ok hrl hrr)
  | node lps lsc lr ll lh' lc' ihlr ihll =>
    intro ps sc r h c t' hl hr hdel
    rcases AVLNode.attrsOkB_node_iff.1 hl with ⟨hll, hlr, -, -⟩
    cases r with
    | nil =>
      simp only [AVLNode.deleteNode, Option.some.injEq] at hdel
      exact hdel ▸ AVLNode.rebalance_ok (AVLNode.update_attrs_ok hll hlr)
    | node rps rsc rr rl rh' rc' =>
      simp only [AVLNode.deleteNode] at hdel
      cases hdn : AVLNode.deleteNode ps sc lr ll lh' lc' with
      | none =>
        simp only [hdn, Option.some.injEq] at hdel
        exact hdel ▸ AVLNode.rebalance_ok (AVLNode.update_attrs_ok rfl hr)
      | some l2 =>
        have hl2 : AVLNode.attrsOkB l2 = true :=
          ihll ps sc lr lh' lc' l2 hll hlr hdn
        simp only [hdn, Option.some.injEq] at hdel
        exact hdel ▸ AVLNode.rebalance_ok (AVLNode.update_attrs_ok hl2 hr)

/-- `delete_player` preserves exact caches. -/
theorem AVLNode.delete_player_ok :
    ∀ (t : AVLNode) (p : String) (t' : AVLNode), AVLNode.attrsOkB t = true →
      AVLNode.delete_player t p = some t' → AVLNode.attrsOkB t' = true := by
  intro t
  induction t with
  | nil =>
    intro p t' _ hdel
    simp only [AVLNode.delete_player, Option.some.injEq] at hdel
    exact hdel ▸ rfl
  | node ps sc r l h c ihr ihl =>
    intro p t' hok hdel
    rcases AVLNode.attrsOkB_node_iff.1 hok with ⟨hl, hr, -, -⟩
    simp only [AVLNode.delete_player] at hdel
    have hl' : AVLNode.attrsOkB
        (match AVLNode.delete_player l p with
          | none => AVLNode.nil
          | some x => x) = true := by
      cases hld : AVLNode.delete_player l p with
      | none => rfl
      | some x => exact ihl p x hl hld
    have hr' : AVLNode.attrsOkB
        (match AVLNode.delete_player r p with
          | none => AVLNode.nil
          | some x => x) = true := by
      cases hrd : AVLNode.delete_player r p with
      | none => rfl
      | some x => exact ihr p x hr hrd
    split at hdel
    · exact AVLNode.deleteNode_ok _ _ _ _ _ _ _ hl' hr' hdel
    · rw [Option.some.injEq] at hdel
      exact hdel ▸ AVLNode.rebalance_ok (AVLNode.update_attrs_ok hl' hr')

/-- `delete_player_score` preserves exact caches. -/
theorem AVLNode.delete_player_score_ok :
    ∀ (t : AVLNode) (p : String) (s : Nat) (t' : AVLNode),
      AVLNode.attrsOkB t = true →
      AVLNode.delete_player_score t p s = some t' →
      AVLNode.attrsOkB t' = true := by
  intro t
  induction t with
  | nil =>
    intro p s t' _ hdel
    simp only [AVLNode.delete_player_score, Option.some.injEq] at hdel
    exact hdel ▸ rfl
  | node ps sc r l h c ihr ihl =>
    intro p s t' hok hdel
    rcases AVLNode.attrsOkB_node_iff.1 hok with ⟨hl, hr, -, -⟩
    simp only [AVLNode.delete_player_score] at hdel
    split at hdel
    · split at hdel
      · exact AVLNode.deleteNode_ok _ _ _ _ _ _ _ hl hr hdel
      · rw [Option.some.injEq] at hdel
        exact hdel ▸ AVLNode.rebalance_ok (AVLNode.update_attrs_ok hl hr)
    · split at hdel
      · have hl' : AVLNode.attrsOkB
            (match AVLNode.delete_player_score l p s with
              | none => AVLNode.nil
              | some x => x) = true := by
          cases hld : AVLNode.delete_player_score l p s with
          | none => rfl
          | some x => exact ihl p s x hl hld
        rw [Option.some.injEq] at hdel
        exact hdel ▸ AVLNode.rebalance_ok (AVLNode.update_attrs_ok hl' hr)
      · have hr' : AVLNode.attrsOkB
            (match AVLNode.delete_player_score r p s with
              | none => AVLNode.nil
              | some x => x) = true := by
          cases hrd : AVLNode.delete_player_score r p s with
          | none => rfl
          | some x => exact ihr p s x hr hrd
        rw [Option.some.injEq] at hdel
        exact hdel ▸ AVLNode.rebalance_ok (AVLNode.update_attrs_ok hl hr')

/-- `Leaderboard.insert` preserves exact caches of the root. -/
theorem Leaderboard.insert_root_ok {lb : Leaderboard} {p : String} {s : Nat}
    (h : AVLNode.attrsOkB lb.root = true) :
    AVLNode.attrsOkB (lb.insert p s).root = true :=
  AVLNode.insert_ok lb.root p s h

/-- `Leaderboard.delete_player` preserves exact caches of the root. -/
theorem Leaderboard.delete_player_root_ok {lb : Leaderboard} {p : String}
    (h : AVLNode.attrsOkB lb.root = true) :
    AVLNode.attrsOkB (lb.delete_player p).root = true := by
  obtain ⟨root⟩ := lb
  cases root with
  | nil => exact h
  | node ps sc r l hh cc =>
    simp only [Leaderboard.delete_player]
    cases hd : AVLNode.delete_player (.node ps sc r l hh cc) p with
    | none => rfl
    | some t' =>
      exact AVLNode.delete_player_ok _ p t' h hd

/-- `Leaderboard.delete_player_score` preserves exact caches of the root. -/
theorem Leaderboard.delete_player_score_root_ok {lb : Leaderboard}
    {p : String} {s : Nat} (h : AVLNode.attrsOkB lb.root = true) :
    AVLNode.attrsOkB (lb.delete_player_score p s).root = true := by
  obtain ⟨root⟩ := lb
  cases root with
  | nil => exact h
  | node ps sc r l hh cc =>
    simp only [Leaderboard.delete_player_score]
    cases hd : AVLNode.delete_player_score (.node ps sc r l hh cc) p s with
    | none => rfl
    | some t' =>
      exact AVLNode.delete_player_score_ok _ p s t' h hd

/-- Every public operation preserves exact caches of the root. -/
theorem applyOp_root_ok {lb : Leaderboard} {op : Op}
    (h : AVLNode.attrsOkB lb.root = true) :
    AVLNode.attrsOkB (applyOp lb op).root = true := by
  cases op with
  | ins p s => exact Leaderboard.insert_root_ok h
  | delP p => exact Leaderboard.delete_player_root_ok h
  | delPS p s => exact Leaderboard.delete_player_score_root_ok h

/-- C7: after every sequence of public operations from the empty
leaderboard, every node's cached `height` equals
`1 + max(height left, height right)` (0 for an absent child) recomputed by
full traversal, and every node's cached `descendant_count` (`children`)
equals the number of nodes of its two subtrees combined, the node itself
excluded.  Every prefix of a sequence is a sequence, so this covers "after
each operation returns". -/
theorem c7_cached_attrs_exact (ops : List Op) :
    AVLNode.attrsOkB (runOps ops).root = true := by
  suffices hgen : ∀ (ops : List Op) (lb : Leaderboard),
      AVLNode.attrsOkB lb.root = true →
      AVLNode.attrsOkB (List.foldl applyOp lb ops).root = true from
    hgen ops Leaderboard.new rfl
  intro ops
  induction ops with
  | nil => intro lb h; exact h
  | cons op rest ih =>
    intro lb h
    exact ih (applyOp lb op) (applyOp_root_ok h)

/-- Unfolding characterisation of `balancedB` at a node. -/
theorem AVLNode.balancedB_node_iff {ps sc r l h c} :
    AVLNode.balancedB (.node ps sc r l h c) = true ↔
      ((AVLNode.realHeight l - AVLNode.realHeight r).natAbs ≤ 1 ∧
       AVLNode.balancedB l = true ∧ AVLNode.balancedB r = true) := by
  simp [AVLNode.balancedB, Bool.and_eq_true, and_assoc]

/-- Unfolding characterisation of `allPairsB` at a node. -/
theorem AVLNode.allPairsB_node_iff {Q ps sc r l h c} :
    AVLNode.allPairsB Q (.node ps sc r l h c) = true ↔
      (Q ps sc = true ∧ AVLNode.allPairsB Q l = true ∧
       AVLNode.allPairsB Q r = true) := by
  simp [AVLNode.allPairsB, Bool.and_eq_true, and_assoc]

/-- When a node's caches are exact, `update_attrs` recomputes exactly the
stored values. -/
theorem AVLNode.update_attrs_id {t : AVLNode}
    (hok : AVLNode.attrsOkB t = true) : AVLNode.update_attrs t = t := by
  cases t with
  | nil => rfl
  | node ps sc r l h c =>
    rcases AVLNode.attrsOkB_node_iff.1 hok with ⟨hl, hr, hh, hc⟩
    simp only [AVLNode.update_attrs, AVLNode.childHeight_eq hl,
      AVLNode.childHeight_eq hr, AVLNode.childCount_eq hl,
      AVLNode.childCount_eq hr, ← hh, ← hc]

/-- An exactly-cached, height-balanced node is not `unbalanced`. -/
theorem AVLNode.unbalanced_false {t : AVLNode}
    (hok : AVLNode.attrsOkB t = true) (hb : AVLNode.balancedB t = true) :
    t.unbalanced = false := by
  cases t with
  | nil => rfl
  | node ps sc r l h c =>
    rcases AVLNode.attrsOkB_node_iff.1 hok with ⟨hl, hr, -, -⟩
    rcases AVLNode.balancedB_node_iff.1 hb with ⟨hd, -, -⟩
    simp only [AVLNode.unbalanced, AVLNode.height_left, AVLNode.height_right,
      AVLNode.childHeight_eq hl, AVLNode.childHeight_eq hr]
    simpa using hd

/-- `rebalance_if_needed` does nothing on an exactly-cached, balanced
node. -/
theorem AVLNode.rebalance_id {t : AVLNode}
    (hok : AVLNode.attrsOkB t = true) (hb : AVLNode.balancedB t = true) :
    AVLNode.rebalance_if_needed t = t := by
  unfold AVLNode.rebalance_if_needed
  rw [if_pos]
  rw [AVLNode.unbalanced_false hok hb]
  simp

/-- `delete_player` for a player appearing in no bucket returns the tree
unchanged (given exact caches, balance, and non-empty buckets). -/
theorem AVLNode.delete_player_noop :
    ∀ (t : AVLNode) (p : String), AVLNode.attrsOkB t = true →
      AVLNode.balancedB t = true → AVLNode.bucketsNE t = true →
      AVLNode.noPlayerB p t = true →
      AVLNode.delete_player t p = some t := by
  intro t
  induction t with
  | nil => intro p _ _ _ _; rfl
  | node ps sc r l h c ihr ihl =>
    intro p hok hb hne hnp
    rcases AVLNode.attrsOkB_node_iff.1 hok with ⟨hokl, hokr, -, -⟩
    rcases AVLNode.balancedB_node_iff.1 hb with ⟨-, hbl, hbr⟩
    rcases AVLNode.allPairsB_node_iff.1 hne with ⟨hne0, hnel, hner⟩
    rcases AVLNode.allPairsB_node_iff.1 hnp with ⟨hnp0, hnpl, hnpr⟩
    have hpm : p ∉ ps := by
      simp only [Bool.not_eq_true'] at hnp0
      simpa using hnp0
    have hfil : ps.filter (fun q => q ≠ p) = ps := by
      apply List.filter_eq_self.2
      intro a ha
      simp only [ne_eq, decide_eq_true_eq]
      intro heq
      exact hpm (heq ▸ ha)
    have hlen : ¬(ps.length < 1) := by
      simp only [Bool.not_eq_true'] at hne0
      have : ps ≠ [] := by simpa using hne0
      cases ps with
      | nil => exact absurd rfl this
      | cons a as => simp
    simp only [AVLNode.delete_player, ihl p hokl hbl hnel hnpl,
      ihr p hokr hbr hner hnpr, hfil]
    rw [if_neg hlen, AVLNode.update_attrs_id hok, AVLNode.rebalance_id hok hb]

/-- `delete_player_score` for a (player, score) pair present in no bucket
returns the tree unchanged (given exact caches, balance, and non-empty
buckets). -/
theorem AVLNode.delete_player_score_noop :
    ∀ (t : AVLNode) (p : String) (s : Nat), AVLNode.attrsOkB t = true →
      AVLNode.balancedB t = true → AVLNode.bucketsNE t = true →
      AVLNode.noPairB p s t = true →
      AVLNode.delete_player_score t p s = some t := by
  intro t
  induction t with
  | nil => intro p s _ _ _ _; rfl
  | node ps sc r l h c ihr ihl =>
    intro p s hok hb hne hnp
    rcases AVLNode.attrsOkB_node_iff.1 hok with ⟨hokl, hokr, -, -⟩
    rcases AVLNode.balancedB_node_iff.1 hb with ⟨-, hbl, hbr⟩
    rcases AVLNode.allPairsB_node_iff.1 hne with ⟨hne0, hnel, hner⟩
    rcases AVLNode.allPairsB_node_iff.1 hnp with ⟨hnp0, hnpl, hnpr⟩
    simp only [AVLNode.delete_player_score]
    split
    · next heq =>
      have hsc : sc = s := by simpa using heq
      have hpm : p ∉ ps := by
        rw [hsc] at hnp0
        simp only [bne_self_eq_false, Bool.false_or, Bool.not_eq_true'] at hnp0
        simpa using hnp0
      have hfil : ps.filter (fun q => q ≠ p) = ps := by
        apply List.filter_eq_self.2
        intro a ha
        simp only [ne_eq, decide_eq_true_eq]
        intro heq'
        exact hpm (heq' ▸ ha)
      have hlen : ¬(ps.length < 1) := by
        simp only [Bool.not_eq_true'] at hne0
        have : ps ≠ [] := by simpa using hne0
        cases ps with
        | nil => exact absurd rfl this
        | cons a as => simp
      rw [hfil, if_neg hlen, AVLNode.update_attrs_id hok,
        AVLNode.rebalance_id hok hb]
    · split
      · rw [ihl p s hokl hbl hnel hnpl]
        rw [AVLNode.update_attrs_id hok, AVLNode.rebalance_id hok hb]
      · rw [ihr p s hokr hbr hner hnpr]
        rw [AVLNode.update_attrs_id hok, AVLNode.rebalance_id hok hb]

/-- C8: on a leaderboard satisfying the data-model invariants (exact
caches, AVL balance, non-empty buckets), `delete_player_score p s` when no
bucket at score `s` contains `p` (in particular when no node holds `s`),
and `delete_player p` when `p` appears in no bucket, leave the tree
identical: same shape, scores, buckets, heights and descendant counts. -/
theorem c8_absent_delete_noop (lb : Leaderboard) (p : String) (s : Nat)
    (hok : AVLNode.attrsOkB lb.root = true)
    (hb : AVLNode.balancedB lb.root = true)
    (hne : AVLNode.bucketsNE lb.root = true) :
    (AVLNode.noPairB p s lb.root = true → lb.delete_player_score p s = lb) ∧
    (AVLNode.noPlayerB p lb.root = true → lb.delete_player p = lb) := by
  obtain ⟨root⟩ := lb
  constructor
  · intro hnp
    cases root with
    | nil => rfl
    | node ps sc r l h c =>
      simp only [Leaderboard.delete_player_score,
        AVLNode.delete_player_score_noop _ p s hok hb hne hnp]
  · intro hnp
    cases root with
    | nil => rfl
    | node ps sc r l h c =>
      simp only [Leaderboard.delete_player,
        AVLNode.delete_player_noop _ p hok hb hne hnp]

/-- Witness for C8 at the driver's five-insert example with an absent
player "Z" and absent score 999. -/
theorem c8_absent_delete_noop_witness :
    lbEx.delete_player_score "Z" 999 = lbEx ∧ lbEx.delete_player "Z" = lbEx :=
  ⟨(c8_absent_delete_noop lbEx "Z" 999 (by decide) (by decide) (by decide)).1
      (by decide),
   (c8_absent_delete_noop lbEx "Z" 999 (by decide) (by decide) (by decide)).2
      (by decide)⟩

/-- `update_attrs` keeps exactly the same (bucket, score) pairs. -/
theorem AVLNode.allPairsB_update_attrs (Q) (t : AVLNode) :
    AVLNode.allPairsB Q (AVLNode.update_attrs t) = AVLNode.allPairsB Q t := by
  cases t <;> rfl

/-- `rotate_left` keeps every (bucket, score) pair. -/
theorem AVLNode.allPairsB_rotate_left {Q} {t : AVLNode}
    (h : AVLNode.allPairsB Q t = true) :
    AVLNode.allPairsB Q (AVLNode.rotate_left t) = true := by
  cases t with
  | nil => exact h
  | node ps sc r l hh cc =>
    cases r with
    | nil => exact h
    | node bps bsc br bl bh bc =>
      simp only [AVLNode.rotate_left, AVLNode.update_attrs,
        AVLNode.allPairsB, Bool.and_eq_true] at h ⊢
      tauto

/-- `rotate_right` keeps every (bucket, score) pair. -/
theorem AVLNode.allPairsB_rotate_right {Q} {t : AVLNode}
    (h : AVLNode.allPairsB Q t = true) :
    AVLNode.allPairsB Q (AVLNode.rotate_right t) = true := by
  cases t with
  | nil => exact h
  | node ps sc r l hh cc =>
    cases l with
    | nil => exact h
    | node bps bsc br bl bh bc =>
      simp only [AVLNode.rotate_right, AVLNode.update_attrs,
        AVLNode.allPairsB, Bool.and_eq_true] at h ⊢
      tauto

/-- `rebalance_if_needed` keeps every (bucket, score) pair. -/
theorem AVLNode.allPairsB_rebalance {Q} {t : AVLNode}
    (h : AVLNode.allPairsB Q t = true) :
    AVLNode.allPairsB Q (AVLNode.rebalance_if_needed t) = true := by
  cases t with
  | nil => exact h
  | node ps sc r l hh cc =>
    rcases AVLNode.allPairsB_node_iff.1 h with ⟨hQ, hl, hr⟩
    cases r with
    | nil =>
      cases l with
      | nil => exact h
      | node lps lsc lr ll lh' lc' =>
        simp only [AVLNode.rebalance_if_needed]
        split
        · exact h
        split
        · exact h
        · split
          · exact AVLNode.allPairsB_rotate_right h
          · apply AVLNode.allPairsB_rotate_right
            apply AVLNode.allPairsB_node_iff.2
            exact ⟨hQ, AVLNode.allPairsB_rotate_left hl, hr⟩
    | node rps rsc rr rl rh' rc' =>
      cases l with
      | nil =>
        simp only [AVLNode.rebalance_if_needed]
        split
        · exact h
        split
        · split
          · exact AVLNode.allPairsB_rotate_left h
          · apply AVLNode.allPairsB_rotate_left
            apply AVLNode.allPairsB_node_iff.2
            exact ⟨hQ, hl, AVLNode.allPairsB_rotate_right hr⟩
        · exact h
      | node lps lsc lr ll lh' lc' =>
        simp only [AVLNode.rebalance_if_needed]
        split
        · exact h
        split
        · split
          · exact AVLNode.allPairsB_rotate_left h
          · apply AVLNode.allPairsB_rotate_left
            apply AVLNode.allPairsB_node_iff.2
            exact ⟨hQ, hl, AVLNode.allPairsB_rotate_right hr⟩
        · split
          · exact AVLNode.allPairsB_rotate_right h
          · apply AVLNode.allPairsB_rotate_right
            apply AVLNode.allPairsB_node_iff.2
            exact ⟨hQ, AVLNode.allPairsB_rotate_left hl, hr⟩

/-- `deleteNode` only drops or rearranges existing pairs: if the deleted
node's pair and every pair of both subtrees satisfy `Q`, so does every
pair of the result. -/
theorem AVLNode.allPairsB_deleteNode {Q} :
    ∀ (l : AVLNode) (ps : List String) (sc : Nat) (r : AVLNode) (h : Int)
      (c : Nat) (t' : AVLNode), Q ps sc = true →
      AVLNode.allPairsB Q l = true → AVLNode.allPairsB Q r = true →
      AVLNode.deleteNode ps sc r l h c = some t' →
      AVLNode.allPairsB Q t' = true := by
  intro l
  induction l with
  | nil =>
    intro ps sc r h c t' hQ hl hr hdel
    cases r with
    | nil => simp [AVLNode.deleteNode] at hdel
    | node rps rsc rr rl rh' rc' =>
      simp only [AVLNode.deleteNode, Option.some.injEq] at hdel
      exact hdel ▸ AVLNode.allPairsB_rebalance
        ((AVLNode.allPairsB_update_attrs Q _).trans rfl ▸ hr)
  | node lps lsc lr ll lh' lc' ihlr ihll =>
    intro ps sc r h c t' hQ hl hr hdel
    rcases AVLNode.allPairsB_node_iff.1 hl with ⟨hQl, hll, hlr⟩
    cases r with
    | nil =>
      simp only [AVLNode.deleteNode, Option.some.injEq] at hdel
      exact hdel ▸ AVLNode.allPairsB_rebalance
        ((AVLNode.allPairsB_update_attrs Q _) ▸ hl)
    | node rps rsc rr rl rh' rc' =>
      simp only [AVLNode.deleteNode] at hdel
      cases hdn : AVLNode.deleteNode ps sc lr ll lh' lc' with
      | none =>
        simp only [hdn, Option.some.injEq] at hdel
        refine hdel ▸ AVLNode.allPairsB_rebalance ?_
        rw [AVLNode.allPairsB_update_attrs]
        exact AVLNode.allPairsB_node_iff.2 ⟨hQl, rfl, hr⟩
      | some l2 =>
        have hl2 : AVLNode.allPairsB Q l2 = true :=
          ihll ps sc lr lh' lc' l2 hQ hll hlr hdn
        simp only [hdn, Option.some.injEq] at hdel
        refine hdel ▸ AVLNode.allPairsB_rebalance ?_
        rw [AVLNode.allPairsB_update_attrs]
        exact AVLNode.allPairsB_node_iff.2 ⟨hQl, hl2, hr⟩

/-- Unfolding characterisation of `bstB` at a node. -/
theorem AVLNode.bstB_node_iff {ps sc r l h c} :
    AVLNode.bstB (.node ps sc r l h c) = true ↔
      (AVLNode.allScoresB (fun x => decide (x < sc)) l = true ∧
       AVLNode.allScoresB (fun x => decide (sc < x)) r = true ∧
       AVLNode.bstB l = true ∧ AVLNode.bstB r = true) := by
  simp [AVLNode.bstB, Bool.and_eq_true, and_assoc]

/-- Weakening of a score bound over a whole subtree. -/
theorem AVLNode.allScoresB_mono {Q R : Nat → Bool}
    (h : ∀ x, Q x = true → R x = true) :
    ∀ t, AVLNode.allScoresB Q t = true → AVLNode.allScoresB R t = true := by
  intro t
  induction t with
  | nil => intro _; rfl
  | node ps sc r l hh cc ihr ihl =>
    intro ht
    simp only [AVLNode.allScoresB, Bool.and_eq_true] at ht ⊢
    exact ⟨⟨h sc ht.1.1, ihl ht.1.2⟩, ihr ht.2⟩

/-- A subtree none of whose scores is `s` trivially has no `(p, s)`
pair. -/
theorem AVLNode.noPairB_of_scores {p : String} {s : Nat} :
    ∀ t, AVLNode.allScoresB (fun x => x != s) t = true →
      AVLNode.noPairB p s t = true := by
  intro t
  induction t with
  | nil => intro _; rfl
  | node ps sc r l hh cc ihr ihl =>
    intro ht
    simp only [AVLNode.allScoresB, Bool.and_eq_true] at ht
    exact AVLNode.allPairsB_node_iff.2
      ⟨by rw [ht.1.1]; rfl, ihl ht.1.2, ihr ht.2⟩

/-- One `delete_player` call removes every occurrence of `p` from every
bucket of the result, unconditionally. -/
theorem AVLNode.delete_player_removes :
    ∀ (t : AVLNode) (p : String) (t' : AVLNode),
      AVLNode.delete_player t p = some t' →
      AVLNode.noPlayerB p t' = true := by
  intro t
  induction t with
  | nil =>
    intro p t' hdel
    simp only [AVLNode.delete_player, Option.some.injEq] at hdel
    exact hdel ▸ rfl
  | node ps sc r l h c ihr ihl =>
    intro p t' hdel
    simp only [AVLNode.delete_player] at hdel
    have hl' : AVLNode.noPlayerB p
        (match AVLNode.delete_player l p with
          | none => AVLNode.nil
          | some x => x) = true := by
      cases hld : AVLNode.delete_player l p with
      | none => rfl
      | some x => exact ihl p x hld
    have hr' : AVLNode.noPlayerB p
        (match AVLNode.delete_player r p with
          | none => AVLNode.nil
          | some x => x) = true := by
      cases hrd : AVLNode.delete_player r p with
      | none => rfl
      | some x => exact ihr p x hrd
    have hps' : (!((ps.filter (fun q => q ≠ p)).contains p)) = true := by
      simp [List.mem_filter]
    split at hdel
    · exact AVLNode.allPairsB_deleteNode _ _ _ _ _ _ _ hps' hl' hr' hdel
    · rw [Option.some.injEq] at hdel
      refine hdel ▸ AVLNode.allPairsB_rebalance ?_
      rw [AVLNode.allPairsB_update_attrs]
      exact AVLNode.allPairsB_node_iff.2 ⟨hps', hl', hr'⟩

/-- One `delete_player_score p s` call on a BST leaves no bucket at score
`s` containing `p`. -/
theorem AVLNode.delete_player_score_removes :
    ∀ (t : AVLNode) (p : String) (s : Nat) (t' : AVLNode),
      AVLNode.bstB t = true →
      AVLNode.delete_player_score t p s = some t' →
      AVLNode.noPairB p s t' = true := by
  intro t
  induction t with
  | nil =>
    intro p s t' _ hdel
    simp only [AVLNode.delete_player_score, Option.some.injEq] at hdel
    exact hdel ▸ rfl
  | node ps sc r l h c ihr ihl =>
    intro p s t' hbst hdel
    rcases AVLNode.bstB_node_iff.1 hbst with ⟨hsl, hsr, hbl, hbr⟩
    simp only [AVLNode.delete_player_score] at hdel
    split at hdel
    · next heq =>
      have hsc : sc = s := by simpa using heq
      subst hsc
      have hlno : AVLNode.noPairB p sc l = true := by
        refine AVLNode.noPairB_of_scores l (AVLNode.allScoresB_mono ?_ l hsl)
        intro x hx
        simp only [decide_eq_true_eq] at hx
        simp only [bne_iff_ne, ne_eq]
        omega
      have hrno : AVLNode.noPairB p sc r = true := by
        refine AVLNode.noPairB_of_scores r (AVLNode.allScoresB_mono ?_ r hsr)
        intro x hx
        simp only [decide_eq_true_eq] at hx
        simp only [bne_iff_ne, ne_eq]
        omega
      have hps' :
          ((sc != sc) || !((ps.filter (fun q => q ≠ p)).contains p)) = true := by
        simp [List.mem_filter]
      split at hdel
      · exact AVLNode.allPairsB_deleteNode _ _ _ _ _ _ _ hps' hlno hrno hdel
      · rw [Option.some.injEq] at hdel
        refine hdel ▸ AVLNode.allPairsB_rebalance ?_
        rw [AVLNode.allPairsB_update_attrs]
        exact AVLNode.allPairsB_node_iff.2 ⟨hps', hlno, hrno⟩
    · next hne =>
      have hscne : (sc != s) = true := by
        simp only [bne_iff_ne, ne_eq]
        intro hcon
        exact hne (by simp [hcon])
      split at hdel
      · next hlt =>
        have hl' : AVLNode.noPairB p s
            (match AVLNode.delete_player_score l p s with
              | none => AVLNode.nil
              | some x => x) = true := by
          cases hld : AVLNode.delete_player_score l p s with
          | none => rfl
          | some x => exact ihl p s x hbl hld
        have hrno : AVLNode.noPairB p s r = true := by
          refine AVLNode.noPairB_of_scores r (AVLNode.allScoresB_mono ?_ r hsr)
          intro x hx
          simp only [decide_eq_true_eq] at hx
          simp only [bne_iff_ne, ne_eq]
          omega
        rw [Option.some.injEq] at hdel
        refine hdel ▸ AVLNode.allPairsB_rebalance ?_
        rw [AVLNode.allPairsB_update_attrs]
        exact AVLNode.allPairsB_node_iff.2
          ⟨by rw [hscne]; rfl, hl', hrno⟩
      · next hge =>
        have hr' : AVLNode.noPairB p s
            (match AVLNode.delete_player_score r p s with
              | none => AVLNode.nil
              | some x => x) = true := by
          cases hrd : AVLNode.delete_player_score r p s with
          | none => rfl
          | some x => exact ihr p s x hbr hrd
        have hlno : AVLNode.noPairB p s l = true := by
          refine AVLNode.noPairB_of_scores l (AVLNode.allScoresB_mono ?_ l hsl)
          intro x hx
          simp only [decide_eq_true_eq] at hx
          simp only [bne_iff_ne, ne_eq]
          have hsgt : sc < s := by
            rcases Nat.lt_trichotomy s sc with hc | hc | hc
            · exact absurd hc hge
            · exact absurd (by simp [hc]) hne
            · exact hc
          omega
        rw [Option.some.injEq] at hdel
        refine hdel ▸ AVLNode.allPairsB_rebalance ?_
        rw [AVLNode.allPairsB_update_attrs]
        exact AVLNode.allPairsB_node_iff.2
          ⟨by rw [hscne]; rfl, hlno, hr'⟩

/-- C9: a single `delete_player_score(p, s)` call removes every occurrence
of `p` from the bucket at score `s` (even duplicated ones, which `insert`
permits): afterwards no bucket at score `s` contains `p`.  Likewise a
single `delete_player(p)` call removes every occurrence of `p` from every
bucket. -/
theorem c9_deletion_removes_all_occurrences (lb : Leaderboard) (p : String)
    (s : Nat) (hbst : AVLNode.bstB lb.root = true) :
    AVLNode.noPairB p s (lb.delete_player_score p s).root = true ∧
    AVLNode.noPlayerB p (lb.delete_player p).root = true := by
  obtain ⟨root⟩ := lb
  constructor
  · cases root with
    | nil => rfl
    | node ps sc r l h c =>
      simp only [Leaderboard.delete_player_score]
      cases hd : AVLNode.delete_player_score (.node ps sc r l h c) p s with
      | none => rfl
      | some t' => exact AVLNode.delete_player_score_removes _ p s t' hbst hd
  · cases root with
    | nil => rfl
    | node ps sc r l h c =>
      simp only [Leaderboard.delete_player]
      cases hd : AVLNode.delete_player (.node ps sc r l h c) p with
      | none => rfl
      | some t' => exact AVLNode.delete_player_removes _ p t' hd

/-- Witness for C9 at the driver's five-insert example, deleting player
"A" and the pair ("A", 150). -/
theorem c9_deletion_removes_all_occurrences_witness :
    AVLNode.noPairB "A" 150 (lbEx.delete_player_score "A" 150).root = true ∧
    AVLNode.noPlayerB "A" (lbEx.delete_player "A").root = true :=
  ⟨(c9_deletion_removes_all_occurrences lbEx "A" 150 (by decide)).1,
   (c9_deletion_removes_all_occurrences lbEx "A" 150 (by decide)).2⟩

/-- A subtree whose scores are all bounded away from exceeding `s`
contributes nothing to `countGT`. -/
theorem AVLNode.countGT_zero {s : Nat} {Q : Nat → Bool}
    (hQ : ∀ x, Q x = true → ¬(s < x)) :
    ∀ t, AVLNode.allScoresB Q t = true → AVLNode.countGT s t = 0 := by
  intro t
  induction t with
  | nil => intro _; rfl
  | node ps sc r l hh cc ihr ihl =>
    intro ht
    simp only [AVLNode.allScoresB, Bool.and_eq_true] at ht
    simp only [AVLNode.countGT, if_neg (hQ sc ht.1.1), ihl ht.1.2, ihr ht.2]

/-- A subtree whose scores all exceed `s` contributes its full node count
to `countGT`. -/
theorem AVLNode.countGT_size {s : Nat} {Q : Nat → Bool}
    (hQ : ∀ x, Q x = true → s < x) :
    ∀ t, AVLNode.allScoresB Q t = true →
      AVLNode.countGT s t = AVLNode.size t := by
  intro t
  induction t with
  | nil => intro _; rfl
  | node ps sc r l hh cc ihr ihl =>
    intro ht
    simp only [AVLNode.allScoresB, Bool.and_eq_true] at ht
    simp only [AVLNode.countGT, if_pos (hQ sc ht.1.1), ihl ht.1.2, ihr ht.2,
      AVLNode.size]
    omega

/-- A subtree none of whose scores is `s` holds no `(p, s)` pair. -/
theorem AVLNode.hasPairB_false {p : String} {s : Nat} {Q : Nat → Bool}
    (hQ : ∀ x, Q x = true → x ≠ s) :
    ∀ t, AVLNode.allScoresB Q t = true → AVLNode.hasPairB p s t = false := by
  intro t
  induction t with
  | nil => intro _; rfl
  | node ps sc r l hh cc ihr ihl =>
    intro ht
    simp only [AVLNode.allScoresB, Bool.and_eq_true] at ht
    simp only [AVLNode.hasPairB, ihl ht.1.2, ihr ht.2, Bool.or_false]
    simp [hQ sc ht.1.1]

/-- `rank_of` with accumulator `acc` on a BST with exact caches: defined
exactly on present `(p, s)` pairs, valued `1 + (number of nodes with score
strictly above s) + acc`. -/
theorem AVLNode.rank_of_spec :
    ∀ (t : AVLNode) (p : String) (s : Nat) (acc : Nat),
      AVLNode.bstB t = true → AVLNode.attrsOkB t = true →
      AVLNode.rank_of t p s acc =
        if AVLNode.hasPairB p s t then some (1 + AVLNode.countGT s t + acc)
        else none := by
  intro t
  induction t with
  | nil => intro p s acc _ _; rfl
  | node ps sc r l h c ihr ihl =>
    intro p s acc hbst hok
    rcases AVLNode.bstB_node_iff.1 hbst with ⟨hsl, hsr, hbl, hbr⟩
    rcases AVLNode.attrsOkB_node_iff.1 hok with ⟨hal, har, -, -⟩
    simp only [AVLNode.rank_of]
    split
    · next heq =>
      have hsc : sc = s := by simpa using heq
      subst hsc
      have hlz : AVLNode.countGT sc l = 0 :=
        AVLNode.countGT_zero (fun x hx => by simp at hx; omega) l hsl
      have hrsz : AVLNode.countGT sc r = AVLNode.size r :=
        AVLNode.countGT_size (fun x hx => by simpa using hx) r hsr
      have hlf : AVLNode.hasPairB p sc l = false :=
        AVLNode.hasPairB_false (fun x hx => by simp at hx; omega) l hsl
      have hrf : AVLNode.hasPairB p sc r = false :=
        AVLNode.hasPairB_false (fun x hx => by simp at hx; omega) r hsr
      split
      · next hflt =>
        have hcon : ps.contains p = false := by
          cases hc : ps.contains p
          · rfl
          · exfalso
            have hpmem : p ∈ ps := by simpa using hc
            have hmemf : p ∈ ps.filter (fun v => v == p) := by
              simp [List.mem_filter, hpmem]
            have := List.length_pos_of_mem hmemf
            omega
        have hpnm : p ∉ ps := by simpa using hcon
        have hhp : AVLNode.hasPairB p sc (.node ps sc r l h c) = false := by
          simp [AVLNode.hasPairB, hlf, hrf, hpnm]
        simp [hhp]
      · next hfge =>
        have hcon : ps.contains p = true := by
          cases hfil : ps.filter (fun v => v == p) with
          | nil => rw [hfil] at hfge; simp at hfge
          | cons a as =>
            have ha : a ∈ ps.filter (fun v => v == p) := by simp [hfil]
            have hmf := List.mem_filter.1 ha
            have hap : a = p := by simpa using hmf.2
            have : p ∈ ps := hap ▸ hmf.1
            simpa using this
        have hpm : p ∈ ps := by simpa using hcon
        have hhp : AVLNode.hasPairB p sc (.node ps sc r l h c) = true := by
          simp [AVLNode.hasPairB, hpm]
        simp only [hhp, if_true, AVLNode.countGT, hlz, hrsz,
          AVLNode.childCount_eq har, Option.some.injEq, Nat.lt_irrefl,
          if_false]
        omega
    · next hne =>
      have hscne : sc ≠ s := by simpa using hne
      split
      · next hlt =>
        rw [ihl p s _ hbl hal]
        have hrf : AVLNode.hasPairB p s r = false :=
          AVLNode.hasPairB_false (fun x hx => by simp at hx; omega) r hsr
        have hrsz : AVLNode.countGT s r = AVLNode.size r :=
          AVLNode.countGT_size (fun x hx => by simp at hx; omega) r hsr
        by_cases hpl : AVLNode.hasPairB p s l = true
        · simp [AVLNode.hasPairB, hscne, hrf, hpl, AVLNode.countGT, hrsz,
            if_pos hlt, AVLNode.childCount_eq har]
          omega
        · have hpl' : AVLNode.hasPairB p s l = false := by
            simpa using hpl
          simp [AVLNode.hasPairB, hscne, hrf, hpl']
      · next hge =>
        rw [ihr p s acc hbr har]
        have hsgt : sc < s := by omega
        have hlf : AVLNode.hasPairB p s l = false :=
          AVLNode.hasPairB_false (fun x hx => by simp at hx; omega) l hsl
        have hlz : AVLNode.countGT s l = 0 :=
          AVLNode.countGT_zero (fun x hx => by simp at hx; omega) l hsl
        by_cases hpr : AVLNode.hasPairB p s r = true
        · simp [AVLNode.hasPairB, hscne, hlf, hpr, AVLNode.countGT, hlz,
            if_neg (by omega : ¬ s < sc)]
        · have hpr' : AVLNode.hasPairB p s r = false := by
            simpa using hpr
          simp [AVLNode.hasPairB, hscne, hlf, hpr']

/-- C5: on a leaderboard satisfying the data-model invariants (BST order
and exact caches), `rank_of p s` returns a value exactly when some node
with score `s` holds `p` in its bucket, and that value is `1 + (number of
nodes with score strictly greater than s)`; otherwise — including when `p`
exists only at other scores — it returns `none`. -/
theorem c5_rank_of_correct (lb : Leaderboard) (p : String) (s : Nat)
    (hbst : AVLNode.bstB lb.root = true)
    (hok : AVLNode.attrsOkB lb.root = true) :
    lb.rank_of p s =
      if AVLNode.hasPairB p s lb.root
      then some (1 + AVLNode.countGT s lb.root) else none := by
  have hmain := AVLNode.rank_of_spec lb.root p s 0 hbst hok
  unfold Leaderboard.rank_of
  rw [hmain]
  simp

/-- Witness for C5 at the driver's five-insert example: player "B" at
score 200 has rank 2. -/
theorem c5_rank_of_correct_witness :
    lbEx.rank_of "B" 200 =
      (if AVLNode.hasPairB "B" 200 lbEx.root
       then some (1 + AVLNode.countGT 200 lbEx.root) else none) ∧
    lbEx.rank_of "B" 200 = some 2 :=
  ⟨c5_rank_of_correct lbEx "B" 200 (by decide) (by decide), by decide⟩

/-- `top_n_players` is exactly the first `n` entries of the full
descending listing, for every tree and every `n`. -/
theorem AVLNode.top_n_eq_take :
    ∀ (t : AVLNode) (n : Nat),
      AVLNode.top_n_players t n = (AVLNode.descPairs t).take n := by
  intro t
  induction t with
  | nil => intro n; simp [AVLNode.top_n_players, AVLNode.descPairs]
  | node ps sc r l h c ihr ihl =>
    intro n
    simp only [AVLNode.top_n_players, AVLNode.descPairs, ihr, ihl]
    by_cases hlt : n - ((AVLNode.descPairs r).take n).length < 1
    · rw [if_pos hlt]
      have hn : n ≤ (AVLNode.descPairs r).length := by
        simp only [List.length_take] at hlt
        omega
      rw [List.take_append_of_le_length (by simp; omega),
        List.take_append_of_le_length hn]
    · rw [if_neg hlt]
      have hlen : (AVLNode.descPairs r).length < n := by
        simp only [List.length_take] at hlt
        omega
      have htk : (AVLNode.descPairs r).take n = AVLNode.descPairs r :=
        List.take_of_length_le (le_of_lt hlen)
      rw [htk]
      rw [List.take_append_eq_append_take, List.take_append_eq_append_take]
      rw [List.take_of_length_le (le_of_lt hlen)]
      rw [List.map_take]
      congr 1
      congr 1
      simp only [List.length_append, List.length_take, List.length_map]
      omega

/-- Every pair listed from a subtree carries a score satisfying the
subtree's score bound. -/
theorem AVLNode.mem_descPairs_score {Q : Nat → Bool} :
    ∀ (t : AVLNode) (x : String × Nat), AVLNode.allScoresB Q t = true →
      x ∈ AVLNode.descPairs t → Q x.2 = true := by
  intro t
  induction t with
  | nil => intro x _ hx; simp [AVLNode.descPairs] at hx
  | node ps sc r l h c ihr ihl =>
    intro x ht hx
    simp only [AVLNode.allScoresB, Bool.and_eq_true] at ht
    simp only [AVLNode.descPairs, List.mem_append, List.mem_map] at hx
    rcases hx with (hx | hx) | hx
    · exact ihr x ht.2 hx
    · rcases hx with ⟨q, -, rfl⟩
      exact ht.1.1
    · exact ihl x ht.1.2 hx

/-- On a BST the descending listing is sorted by non-increasing score. -/
theorem AVLNode.descPairs_sorted :
    ∀ (t : AVLNode), AVLNode.bstB t = true →
      (AVLNode.descPairs t).Pairwise
        (fun a b : String × Nat => b.2 ≤ a.2) := by
  intro t
  induction t with
  | nil => intro _; simp [AVLNode.descPairs]
  | node ps sc r l h c ihr ihl =>
    intro hbst
    rcases AVLNode.bstB_node_iff.1 hbst with ⟨hsl, hsr, hbl, hbr⟩
    simp only [AVLNode.descPairs]
    rw [List.append_assoc]
    refine List.pairwise_append.2 ⟨ihr hbr, ?_, ?_⟩
    · refine List.pairwise_append.2 ⟨?_, ihl hbl, ?_⟩
      · exact List.pairwise_map.2 (List.pairwise_of_forall (fun _ _ => le_refl sc))
      · intro a ha b hb
        rcases List.mem_map.1 ha with ⟨q, -, rfl⟩
        have hblt : b.2 < sc := by
          simpa using AVLNode.mem_descPairs_score l b hsl hb
        exact le_of_lt hblt
    · intro a ha b hb
      have hasc : sc < a.2 := by
        simpa using AVLNode.mem_descPairs_score r a hsr ha
      rcases List.mem_append.1 hb with hb | hb
      · rcases List.mem_map.1 hb with ⟨q, -, rfl⟩
        exact le_of_lt hasc
      · have hblt : b.2 < sc := by
          simpa using AVLNode.mem_descPairs_score l b hsl hb
        omega

/-- C6: on a leaderboard satisfying the data-model invariants,
`top_n_players n` is the first `n` entries of the right-to-left walk
`descPairs` — so it lists the `n` highest (player, score) pairs, tied
players appearing consecutively in bucket insertion order; its scores are
non-increasing (strictly decreasing across distinct scores), its length
never exceeds `n`, and when `n` is at least the whole population it
returns everything without padding or error. -/
theorem c6_top_n_players_correct (lb : Leaderboard) (n : Nat)
    (hbst : AVLNode.bstB lb.root = true) :
    lb.top_n_players n = (AVLNode.descPairs lb.root).take n ∧
    (lb.top_n_players n).length ≤ n ∧
    List.Pairwise (fun a b : String × Nat => b.2 ≤ a.2)
      (lb.top_n_players n) ∧
    ((AVLNode.descPairs lb.root).length ≤ n →
      lb.top_n_players n = AVLNode.descPairs lb.root) := by
  have heq : lb.top_n_players n = (AVLNode.descPairs lb.root).take n :=
    AVLNode.top_n_eq_take lb.root n
  refine ⟨heq, ?_, ?_, ?_⟩
  · rw [heq, List.length_take]
    omega
  · rw [heq]
    exact List.Pairwise.sublist (List.take_sublist n _)
      (AVLNode.descPairs_sorted lb.root hbst)
  · intro hle
    rw [heq, List.take_of_length_le hle]

/-- Witness for C6 at the driver's five-insert example with `n = 3`. -/
theorem c6_top_n_players_correct_witness :
    lbEx.top_n_players 3 = (AVLNode.descPairs lbEx.root).take 3 ∧
    lbEx.top_n_players 3 = [("E", 250), ("B", 200), ("D", 180)] :=
  ⟨(c6_top_n_players_correct lbEx 3 (by decide)).1, by decide⟩
